import Mathlib

/-!
# Verification of the qiskit-terra circuit/DAG core

Shallow embedding of the visible source files:

* `src/qiskit/_quantumcircuit.py` — the `QuantumCircuit` class
  (`has_register`, `add`, `combine`, `extend`, `measure`, `dag`).
* `src/qiskit/converters/dag_to_circuit.py` — `dag_to_circuit`.
* `src/qiskit/extensions/standard/cx.py` — `CnotGate` (`inverse`).

Classes that the source imports but whose files are not part of the
repository slice (`Register`, `QuantumRegister`, `ClassicalRegister`,
`Measure`, `InstructionSet`, `DAGCircuit`) are modelled from the design
specification; each such definition is marked `Modelled from the spec:`
in its doc comment.

Python mutation is embedded by explicit state passing.  A method that can
raise while it mutates returns `Except (QError × Circuit) _`: the error
case carries the state of the receiver at the moment the exception was
raised, so partial-mutation behaviour is observable.
-/

set_option autoImplicit false

namespace Qiskit

/-- The kind of a register: `QuantumRegister` vs `ClassicalRegister`
(the two `Register` subclasses of the source). -/
inductive RegKind where
  | quantum
  | classical
  deriving DecidableEq, Repr

/-- Modelled from the spec: a register is a named, sized, typed collection
of bits (`{name: string, size: uint, kind: Quantum|Classical}`, spec §3).
Two register objects with equal fields are indistinguishable here, which
matches the spec's statement that compatibility is by name+size+kind,
never by object identity. -/
structure Register where
  name : String
  size : Nat
  kind : RegKind
  deriving DecidableEq, Repr

/-- A bit reference: `(register, index)` (spec §3). -/
abbrev BitRef := Register × Nat

/-- An instruction as the visible source reads it: `instruction.name`,
`instruction.param`, `instruction.arg` (the operand bit references; for a
measurement `arg[0]` is the qubit and `arg[1]` the classical bit), and
`instruction.control` (the optional classical condition).  Parameters are
only carried around by the visible code, never computed with, so they are
embedded as integers. -/
structure Instruction where
  name : String
  param : List Int
  arg : List BitRef
  control : Option BitRef
  deriving DecidableEq, Repr

/-- The distinct failure kinds of the source, one constructor per distinct
`QISKitError` message (plus `sizeMismatch`, an error kind the design
documents for broadcast over unequal registers, and `typeError` for paths
where Python itself would fault).  No code path in the embedded fragment
produces `sizeMismatch`. -/
inductive QError where
  /-- "expected a register" (`QuantumCircuit.add`). -/
  | expectedRegister
  /-- "register name ... already exists" (`QuantumCircuit.add`). -/
  | duplicateRegisterName (name : String)
  /-- "circuits are not compatible" (`combine`/`extend`). -/
  | notCompatible
  /-- "expected quantum register" (`_check_qreg`). -/
  | expectedQuantumRegister
  /-- "expected classical register" (`_check_creg`). -/
  | expectedClassicalRegister
  /-- "register '...' not in this circuit" (`_check_qreg`/`_check_creg`). -/
  | registerNotInCircuit (name : String)
  /-- Modelled from the spec: `OutOfRangeBitError`, raised by
  `Register.check_range` for an index outside `[0, size)` (spec §4.1). -/
  | outOfRange
  /-- Modelled from the spec: `UnknownRegisterError`, a bit reference or
  condition naming a register not declared in the target (spec §7). -/
  | unknownRegister (name : String)
  /-- A size-mismatch failure for register broadcast (spec §7); never
  produced by the embedded code. -/
  | sizeMismatch
  /-- A raw Python-level fault (e.g. tuple index error); unreachable on
  the paths the theorems traverse. -/
  | typeError
  deriving DecidableEq, Repr

/-- A circuit: the ordered register map `self.regs` (an `OrderedDict`
keyed by name, embedded as an insertion-ordered list) and the instruction
list `self.data`. -/
structure Circuit where
  regs : List Register
  data : List Instruction
  deriving DecidableEq, Repr

/-- Lookup in the register map by name (Python `self.regs[name]` /
`name in self.regs`). -/
def lookupReg (regs : List Register) (nm : String) : Option Register :=
  regs.find? (fun r => decide (r.name = nm))

namespace QuantumCircuit

/-- `QuantumCircuit.has_register` (src lines 58-72): look the queried
register's name up in the map, then require equal size and that both are
quantum or both classical. -/
def has_register (c : Circuit) (register : Register) : Bool :=
  match lookupReg c.regs register.name with
  | some registers =>
      if registers.size = register.size then
        (decide (register.kind = RegKind.quantum)
            && decide (registers.kind = RegKind.quantum))
        || (decide (register.kind = RegKind.classical)
            && decide (registers.kind = RegKind.classical))
      else false
  | none => false

/-- An argument to `add`: either a register or some non-register Python
value (which `add` rejects with "expected a register"). -/
inductive AddArg where
  | register (r : Register)
  | nonRegister
  deriving DecidableEq, Repr

/-- `QuantumCircuit.add` (src lines 139-148): iterate over the arguments;
a non-register raises "expected a register", a name collision raises
"register name ... already exists", otherwise the register is appended to
the map.  The error value carries the circuit state at the raise: the
registers processed before the offending argument stay added, exactly as
in the Python loop. -/
def add (c : Circuit) : List AddArg → Except (QError × Circuit) Circuit
  | [] => .ok c
  | .nonRegister :: _ => .error (.expectedRegister, c)
  | .register r :: rest =>
      if (lookupReg c.regs r.name).isNone then
        add { c with regs := c.regs ++ [r] } rest
      else
        .error (.duplicateRegisterName r.name, c)

/-- The compatibility loop of `combine`/`extend` (src lines 96-98 and
111-113): raise "circuits are not compatible" at the first of `rhs`'s
registers that fails `has_register`. -/
def checkCompat (self : Circuit) : List Register → Option QError
  | [] => none
  | r :: rest =>
      if has_register self r then checkCompat self rest
      else some .notCompatible

/-- Modelled from the spec: rebinding of an instruction's operand bit
references onto the registers of a target circuit, by matching name and
size (spec §4.2, `reapply`); a reference whose register has no match
fails with `UnknownRegisterError` (spec §7). -/
def rebindArgs (regs : List Register) : List BitRef → Except QError (List BitRef)
  | [] => .ok []
  | (r, i) :: rest =>
      match regs.find? (fun s => decide (s.name = r.name) && decide (s.size = r.size)) with
      | some s => (rebindArgs regs rest).map (fun l => (s, i) :: l)
      | none => .error (.unknownRegister r.name)

/-- Modelled from the spec: `Instruction.reapply` clones the instruction's
name, parameters and condition, rebinds its operands onto the registers of
the target circuit by name and size, and attaches the clone there
(spec §4.2).  The visible `CnotGate.reapply` follows this pattern
(`circ.cx(self.qargs[0], self.qargs[1])`). -/
def reapply (inst : Instruction) (c : Circuit) : Except (QError × Circuit) Circuit :=
  match rebindArgs c.regs inst.arg with
  | .ok args => .ok { c with data := c.data ++ [{ inst with arg := args }] }
  | .error e => .error (e, c)

/-- The replay loop of `combine`/`extend`: reapply each instruction in
order; a failure propagates and carries the partially replayed state. -/
def replay (c : Circuit) : List Instruction → Except (QError × Circuit) Circuit
  | [] => .ok c
  | inst :: rest =>
      match reapply inst c with
      | .ok c' => replay c' rest
      | .error e => .error e

/-- `QuantumCircuit.combine` (src lines 90-103): check every register of
`rhs` with `has_register`, build a brand-new circuit over `self`'s
registers (`QuantumCircuit(*self.regs.values())`, which runs `add`), then
replay `self`'s instructions followed by `rhs`'s onto it.  Neither
operand is written to; on an exception the half-built new circuit is
discarded. -/
def combine (self rhs : Circuit) : Except QError Circuit :=
  match checkCompat self rhs.regs with
  | some e => .error e
  | none =>
      match add ⟨[], []⟩ (self.regs.map AddArg.register) with
      | .error (e, _) => .error e
      | .ok c0 =>
          match replay c0 (self.data ++ rhs.data) with
          | .ok c' => .ok c'
          | .error (e, _) => .error (e)

/-- `QuantumCircuit.extend` (src lines 105-116): same compatibility check,
then replay `rhs`'s instructions onto `self` in place.  The error value
carries `self`'s state at the raise. -/
def extend (self rhs : Circuit) : Except (QError × Circuit) Circuit :=
  match checkCompat self rhs.regs with
  | some e => .error (e, self)
  | none => replay self rhs.data

end QuantumCircuit

/-- A `measure` operand as Python receives it: either a whole register or
a `(register, index)` tuple. -/
inductive MArg where
  | reg (r : Register)
  | bit (r : Register) (i : Nat)
  deriving DecidableEq, Repr

/-- A Python value reachable by subscripting a `measure` operand: a
register object, an integer, or a `(register, index)` tuple. -/
inductive PyVal where
  | regv (r : Register)
  | idx (i : Nat)
  | bitv (r : Register) (i : Nat)
  deriving DecidableEq, Repr

/-- Subscripting a `measure` operand.  On a tuple, `[0]` is the register
and `[1]` the index.  On a register, this is `Register.__getitem__`
(modelled from the spec: a bit reference is the `(register, index)` pair,
range-checked per §4.1 — `dag_to_circuit` line 42 confirms that indexing
a register yields a bit reference). -/
def MArg.getitem : MArg → Nat → Except QError PyVal
  | .bit r _, 0 => .ok (.regv r)
  | .bit _ i, 1 => .ok (.idx i)
  | .bit _ _, _ => .error .typeError
  | .reg r, k => if k < r.size then .ok (.bitv r k) else .error .outOfRange

/-- Modelled from the spec: `Register.check_range(index)` fails with
`OutOfRangeBitError` for an index outside `[0, size)` (spec §4.1); called
on the subscripted values `qubit[0].check_range(qubit[1])`. -/
def checkRange (v0 v1 : PyVal) : Except QError Unit :=
  match v0, v1 with
  | .regv r, .idx i => if i < r.size then .ok () else .error .outOfRange
  | _, _ => .error .typeError

namespace QuantumCircuit

/-- `QuantumCircuit._check_qreg` (src lines 150-157): "expected quantum
register" unless the value is a quantum register, then "register ... not
in this circuit" unless `has_register` holds. -/
def check_qreg (c : Circuit) (v : PyVal) : Except QError Unit :=
  match v with
  | .regv r =>
      if r.kind = RegKind.quantum then
        if has_register c r then .ok ()
        else .error (.registerNotInCircuit r.name)
      else .error .expectedQuantumRegister
  | _ => .error .expectedQuantumRegister

/-- `QuantumCircuit._check_creg` (src lines 164-171). -/
def check_creg (c : Circuit) (v : PyVal) : Except QError Unit :=
  match v with
  | .regv r =>
      if r.kind = RegKind.classical then
        if has_register c r then .ok ()
        else .error (.registerNotInCircuit r.name)
      else .error .expectedClassicalRegister
  | _ => .error .expectedClassicalRegister

/-- `QuantumCircuit._check_qubit` (src lines 159-162):
`_check_qreg(qubit[0])` then `qubit[0].check_range(qubit[1])`. -/
def check_qubit (c : Circuit) (qubit : MArg) : Except QError Unit := do
  let v ← qubit.getitem 0
  check_qreg c v
  let v0 ← qubit.getitem 0
  let v1 ← qubit.getitem 1
  checkRange v0 v1

/-- The scalar path of `QuantumCircuit.measure` (src lines 252-255):
validate the qubit, validate `cbit[0]` as a classical register in the
circuit, range-check `cbit[1]`, then attach `Measure(qubit, cbit)`
(modelled from the spec: a measurement instruction named "measure" whose
operands are the one qubit and the one classical bit, spec §4.2).  The
error carries the circuit unchanged: every check precedes the attach. -/
def measureOne (c : Circuit) (qubit cbit : MArg) :
    Except (QError × Circuit) (Circuit × Instruction) :=
  match
    (do
      check_qubit c qubit
      let w ← cbit.getitem 0
      check_creg c w
      let w0 ← cbit.getitem 0
      let w1 ← cbit.getitem 1
      checkRange w0 w1 : Except QError Unit)
  with
  | .error e => .error (e, c)
  | .ok () =>
      match qubit, cbit with
      | .bit q i, .bit r j =>
          let inst : Instruction := ⟨"measure", [], [(q, i), (r, j)], none⟩
          .ok ({ c with data := c.data ++ [inst] }, inst)
      | _, _ => .error (.typeError, c)

/-- What `measure` returns: the attached gate (scalar form) or the
`InstructionSet` collecting the broadcast batch in index order (modelled
from the spec: an instruction set is the ordered sequence of instructions
produced by one broadcast call, spec §3). -/
inductive MeasureRet where
  | gate (g : Instruction)
  | iset (s : List Instruction)
  deriving DecidableEq, Repr

/-- One iteration of the register-broadcast loop of `measure` (src lines
248-249): `instructions.add(self.measure((qubit, i), (cbit, i)))` — the
tuple call is exactly the scalar path `measureOne`, and the gate it
returns is appended to the instruction set. -/
def measStep (q cl : Register) (p : Circuit × List Instruction) (i : Nat) :
    Except (QError × Circuit) (Circuit × List Instruction) := do
  let (c', inst) ← measureOne p.1 (.bit q i) (.bit cl i)
  pure (c', p.2 ++ [inst])

/-- `QuantumCircuit.measure` (src lines 235-255).  If both operands are
whole registers of the right kinds with `len(qubit) == len(cbit)`, fan
out index-wise over `range(qubit.size)`, collecting the gates into an
`InstructionSet`; otherwise fall through to the scalar path. -/
def measure (c : Circuit) (qubit cbit : MArg) :
    Except (QError × Circuit) (Circuit × MeasureRet) :=
  match qubit, cbit with
  | .reg q, .reg cl =>
      if decide (q.kind = RegKind.quantum) && decide (cl.kind = RegKind.classical)
          && decide (q.size = cl.size) then
        match (List.range q.size).foldlM (measStep q cl) ((c, []) : Circuit × List Instruction) with
        | .ok (c', l) => .ok (c', .iset l)
        | .error e => .error e
      else
        match measureOne c (.reg q) (.reg cl) with
        | .ok (c', g) => .ok (c', .gate g)
        | .error e => .error e
  | _, _ =>
      match measureOne c qubit cbit with
      | .ok (c', g) => .ok (c', .gate g)
      | .error e => .error e

end QuantumCircuit

/-! ## The DAG representation

`DAGCircuit` lives in `qiskit/dagcircuit`, which is not part of the
repository slice; it is modelled from the spec (§3 "DAG", §4.4, §6). -/

/-- A basis-table entry: `name → (n_qubits, n_clbits, n_params)`
(spec §3: `basis: mapping name→{arity_qubits, arity_classical,
arity_params, ...}`).  `n_qubits` is an integer because the barrier entry
uses `-1` for "any number of qubits". -/
structure BasisEntry where
  name : String
  n_qubits : Int
  n_clbits : Nat
  n_params : Nat
  deriving DecidableEq, Repr

/-- Modelled from the spec: a DAG operation node's payload mirrors an
instruction — name, quantum args, classical args, params, condition
(spec §3).  Bit references and the condition are held in the DAG's
register view as `(register name, index/value)` pairs, which is what
`QuantumCircuit.dag` passes to `apply_operation_back` (src lines
220-232). -/
structure DagNode where
  name : String
  qargs : List (String × Nat)
  cargs : List (String × Nat)
  param : List Int
  condition : Option (String × Nat)
  deriving DecidableEq, Repr

/-- Modelled from the spec: the DAG — quantum and classical register maps,
the basis table, and the operation nodes (spec §3).  Nodes are stored in
insertion order; `apply_operation_back` wires each new node below the
current last writer of every bit it touches, so insertion order is a
topological order of the dependency graph, and it is the order
`node_nums_in_topological_order` enumerates (spec §4.4: any order
consistent with all dependency edges is valid).  `gate_data` records the
names passed to `add_gate_data`. -/
structure DAGCircuit where
  qregs : List Register
  cregs : List Register
  basis : List BasisEntry
  gate_data : List String
  nodes : List DagNode
  deriving DecidableEq, Repr

namespace DAGCircuit

/-- Modelled from the spec: `declare_quantum_register` — the DAG creates
its own register view from the declared name and size (spec §4.4 step 1,
§6). -/
def add_qreg (d : DAGCircuit) (nm : String) (size : Nat) : DAGCircuit :=
  { d with qregs := d.qregs ++ [⟨nm, size, RegKind.quantum⟩] }

/-- Modelled from the spec: `declare_classical_register`. -/
def add_creg (d : DAGCircuit) (nm : String) (size : Nat) : DAGCircuit :=
  { d with cregs := d.cregs ++ [⟨nm, size, RegKind.classical⟩] }

/-- The basis-table update: keep the table unchanged when the name is
already declared, else append the entry. -/
def addBasisList (a : List BasisEntry) (b : BasisEntry) : List BasisEntry :=
  if (a.find? (fun e => decide (e.name = b.name))).isSome then a
  else a ++ [b]

/-- Modelled from the spec: `declare_basis_element` — re-declaring an
existing name is a no-op (spec §3: "re-declaring an existing name is a
no-op if identical ... must not silently override"). -/
def add_basis_element (d : DAGCircuit) (b : BasisEntry) : DAGCircuit :=
  { d with basis := addBasisList d.basis b }

/-- Modelled from the spec: `register_gate_definition`. -/
def add_gate_data (d : DAGCircuit) (nm : String) : DAGCircuit :=
  { d with gate_data := d.gate_data ++ [nm] }

/-- Modelled from the spec: `append_operation` appends a node whose
in-edges come from the current last writer of every touched bit
(spec §4.4 step 4); the edge structure is implicit in insertion order
(see `DAGCircuit`). -/
def apply_operation_back (d : DAGCircuit) (n : DagNode) : DAGCircuit :=
  { d with nodes := d.nodes ++ [n] }

end DAGCircuit

namespace QuantumCircuit

/-- The class attribute `QuantumCircuit.definitions` (src line 48): the
dict literal `{}` — the machinery that would populate it is outside the
visible fragment.  Entries would be `(name, n_bits, n_args)`. -/
def definitions : List (String × Nat × Nat) := []

/-- The `builtins` table of `QuantumCircuit.dag` (src lines 207-213):
the five OpenQASM structural primitives with their fixed arities. -/
def lookupBuiltin : String → Option BasisEntry
  | "U" => some ⟨"U", 1, 0, 3⟩
  | "CX" => some ⟨"CX", 2, 0, 0⟩
  | "measure" => some ⟨"measure", 1, 1, 0⟩
  | "reset" => some ⟨"reset", 1, 0, 0⟩
  | "barrier" => some ⟨"barrier", -1, 0, 0⟩
  | _ => none

/-- A default bit reference, standing for Python's behaviour of indexing
`instruction.arg`; it is only reachable for a "measure" instruction with
fewer than two operands, which no code path constructs. -/
def dummyRef : BitRef := (⟨"", 0, RegKind.classical⟩, 0)

/-- The per-instruction DAG payload built by `QuantumCircuit.dag`
(src lines 218-232): a measurement's quantum and classical operands are
separated into `qargs`/`cargs`, any other instruction sends all its
operands to `qargs`; the classical condition is resolved to a
`(register name, value)` pair. -/
def nodeOf (instr : Instruction) : DagNode :=
  if instr.name = "measure" then
    ⟨instr.name,
     [((instr.arg.getD 0 dummyRef).1.name, (instr.arg.getD 0 dummyRef).2)],
     [((instr.arg.getD 1 dummyRef).1.name, (instr.arg.getD 1 dummyRef).2)],
     instr.param, instr.control.map (fun p => (p.1.name, p.2))⟩
  else
    ⟨instr.name, instr.arg.map (fun p => (p.1.name, p.2)), [],
     instr.param, instr.control.map (fun p => (p.1.name, p.2))⟩

/-- `QuantumCircuit.dag` (src lines 188-233): declare every register of
the circuit in the DAG (quantum vs classical), add the user gate
definitions (`definitions` is the empty table in the source), then for
each instruction in program order register its builtin basis entry on
demand and append its node. -/
def dag (c : Circuit) : DAGCircuit :=
  let d0 : DAGCircuit := ⟨[], [], [], [], []⟩
  let d1 := c.regs.foldl
    (fun d r =>
      match r.kind with
      | RegKind.quantum => d.add_qreg r.name r.size
      | RegKind.classical => d.add_creg r.name r.size)
    d0
  let d2 := definitions.foldl
    (fun d p => (d.add_basis_element ⟨p.1, Int.ofNat p.2.1, 0, p.2.2⟩).add_gate_data p.1)
    d1
  c.data.foldl
    (fun d instr =>
      let d' :=
        match lookupBuiltin instr.name with
        | some b => d.add_basis_element b
        | none => d
      d'.apply_operation_back (nodeOf instr))
    d2

end QuantumCircuit

/-! ## DAG → circuit (`src/qiskit/converters/dag_to_circuit.py`) -/

/-- Resolution of a node's bit references against the freshly created
registers: `qregs[bit_name][index]` (src lines 41-46) — a dictionary
lookup by register name followed by register indexing, which range-checks
(spec §4.4 step 3: matched by register name and index, not by
identity). -/
def resolveBits (regs : List Register) :
    List (String × Nat) → Except QError (List BitRef)
  | [] => .ok []
  | (nm, i) :: rest =>
      match lookupReg regs nm with
      | some r =>
          if i < r.size then (resolveBits regs rest).map (fun l => (r, i) :: l)
          else .error .outOfRange
      | none => .error (.unknownRegister nm)

/-- `duplicate_instruction` (src lines 54-63) — create a fresh instruction
from the node's payload.  Modelled from the spec for the constructor
calls `inst.__class__(*params)` (the instruction classes are outside the
fragment; spec §4.4 step 3: "construct a brand-new instruction instance
of the same operation"): a barrier is rebuilt from its quantum args alone
(`params = [inst.qargs]`), a snapshot from its params and quantum args,
anything else from params + qargs + cargs. -/
def duplicate_instruction (nm : String) (params : List Int)
    (qargs cargs : List BitRef) : Instruction :=
  if nm = "barrier" then ⟨nm, [], qargs, none⟩
  else if nm = "snapshot" then ⟨nm, params, qargs, none⟩
  else ⟨nm, params, qargs ++ cargs, none⟩

/-- Reconstruction of a node's classical condition against the fresh
classical registers (src lines 48-52; spec §4.4 step 3: "reconstruct the
classical condition the same way", i.e. by register name). -/
def condResolve (cregs : List Register) :
    Option (String × Nat) → Except QError (Option BitRef)
  | none => .ok none
  | some (nm, v) =>
      match lookupReg cregs nm with
      | some r => .ok (some ((r, v) : BitRef))
      | none => .error (QError.unknownRegister nm)

/-- The per-node body of the `dag_to_circuit` loop (src lines 37-67):
resolve the node's bit references against the fresh register maps
(`qregs[name][index]` / `cregs[name][index]`), reconstruct the classical
condition, and duplicate the instruction with the resolved operands and
condition. -/
def reconstructNode (qregs cregs : List Register) (n : DagNode) :
    Except QError Instruction := do
  let qubits ← resolveBits qregs n.qargs
  let clbits ← resolveBits cregs n.cargs
  let cond ← condResolve cregs n.condition
  pure { duplicate_instruction n.name n.param qubits clbits with control := cond }

/-- `dag_to_circuit` (src lines 16-69): create fresh quantum registers
mirroring the DAG's quantum registers, then fresh classical registers,
build a circuit over them (quantum first, then classical —
`QuantumCircuit(*qregs.values(), *cregs.values())`), and for each node in
topological order reconstruct its instruction and attach it. -/
def dag_to_circuit (dagc : DAGCircuit) : Except QError Circuit :=
  let qregs := dagc.qregs.map (fun r => (⟨r.name, r.size, RegKind.quantum⟩ : Register))
  let cregs := dagc.cregs.map (fun r => (⟨r.name, r.size, RegKind.classical⟩ : Register))
  match QuantumCircuit.add ⟨[], []⟩ ((qregs ++ cregs).map QuantumCircuit.AddArg.register) with
  | .error (e, _) => .error e
  | .ok circuit0 =>
      dagc.nodes.foldlM
        (fun circ n => do
          let inst ← reconstructNode qregs cregs n
          pure { circ with data := circ.data ++ [inst] })
        circuit0

/-! ## `CnotGate` (`src/qiskit/extensions/standard/cx.py`) -/

/-- The `CnotGate` class: `Gate("cx", [], [ctl, tgt])` (src line 27). -/
structure CnotGate where
  ctl : BitRef
  tgt : BitRef
  deriving DecidableEq, Repr

namespace CnotGate

/-- The gate's name, fixed by the constructor: `"cx"`. -/
def name (_ : CnotGate) : String := "cx"

/-- The gate's parameter list, fixed by the constructor: `[]`. -/
def param (_ : CnotGate) : List Int := []

/-- The gate's quantum operands in order: `[ctl, tgt]`. -/
def qargs (g : CnotGate) : List BitRef := [g.ctl, g.tgt]

/-- `CnotGate.inverse` (src lines 43-45): `return self  # self-inverse`. -/
def inverse (g : CnotGate) : CnotGate := g

end CnotGate

/-! ## Well-formedness

The structural invariants of spec §3 for circuits built through the
authoring API: every bit reference in `data` resolves (by name) to the
very register held in `regs`, indices are in range, a measurement has
exactly one quantum and one classical operand, any other instruction has
quantum operands only, conditions name classical registers of the
circuit, and a barrier carries no parameters. -/

/-- Well-formedness of one instruction against a register map. -/
def instrWf (regs : List Register) (i : Instruction) : Bool :=
  i.arg.all (fun p =>
      decide (lookupReg regs p.1.name = some p.1) && decide (p.2 < p.1.size))
  && (match i.control with
      | none => true
      | some p =>
          decide (lookupReg regs p.1.name = some p.1)
            && decide (p.1.kind = RegKind.classical))
  && (if i.name = "measure" then
        match i.arg with
        | [q, cb] =>
            decide (q.1.kind = RegKind.quantum)
              && decide (cb.1.kind = RegKind.classical)
        | _ => false
      else i.arg.all (fun p => decide (p.1.kind = RegKind.quantum)))
  && (if i.name = "barrier" then i.param.isEmpty else true)

/-- Well-formedness of a circuit: distinct register names plus
per-instruction well-formedness. -/
def circWf (c : Circuit) : Bool :=
  decide ((c.regs.map Register.name).Nodup) && c.data.all (instrWf c.regs)

/-- The weaker data invariant needed by `combine`: every operand bit
reference resolves by name to the register it carries. -/
def argsBound (c : Circuit) : Bool :=
  c.data.all (fun i =>
    i.arg.all (fun p => decide (lookupReg c.regs p.1.name = some p.1)))

/-- The bits an instruction touches, as `(register name, index)` pairs. -/
def Instruction.bits (i : Instruction) : List (String × Nat) :=
  i.arg.map (fun p => (p.1.name, p.2))

/-- Two instructions share at least one bit. -/
def sharesBit (a b : Instruction) : Bool :=
  a.bits.any (fun x => b.bits.any (fun y => decide (x = y)))

/-- The instruction list forms a single per-bit chain: every consecutive
pair shares a bit (so the DAG's per-bit edges force a unique topological
order, spec §4.4). -/
def chainData : List Instruction → Bool
  | [] => true
  | [_] => true
  | a :: b :: rest => sharesBit a b && chainData (b :: rest)

/-- The measurement instruction attached for index `i` of a register
broadcast: `Measure((q, i), (cl, i))`. -/
def mkMeas (q cl : Register) (i : Nat) : Instruction :=
  ⟨"measure", [], [(q, i), (cl, i)], none⟩

/-- The register is a `QuantumRegister`. -/
def isQuantumB (r : Register) : Bool := decide (r.kind = RegKind.quantum)

/-- The register is a `ClassicalRegister`. -/
def isClassicalB (r : Register) : Bool := decide (r.kind = RegKind.classical)

/-- The basis table accumulated by the instruction loop of `dag`:
for each instruction in order, register its builtin entry if its name is
one of the five builtins. -/
def basisAfter (acc : List BasisEntry) (data : List Instruction) : List BasisEntry :=
  data.foldl
    (fun a i =>
      match QuantumCircuit.lookupBuiltin i.name with
      | some b => DAGCircuit.addBasisList a b
      | none => a)
    acc

/-! ## Concrete fixtures for the witnesses -/

/-- A two-qubit quantum register used by the concrete witnesses. -/
def qrEx : Register := ⟨"q", 2, RegKind.quantum⟩

/-- A one-bit classical register used by the concrete witnesses. -/
def crEx : Register := ⟨"c", 1, RegKind.classical⟩

/-- A two-bit classical register used by the concrete witnesses. -/
def crEx2 : Register := ⟨"d", 2, RegKind.classical⟩

/-- Left operand of the concrete `combine` witness. -/
def combineL : Circuit := ⟨[qrEx], [⟨"cx", [], [(qrEx, 0), (qrEx, 1)], none⟩]⟩

/-- Right operand of the concrete `combine` witness. -/
def combineR : Circuit := ⟨[qrEx], [⟨"reset", [], [(qrEx, 0)], none⟩]⟩

/-- Left operand of the concrete incompatible-`extend` witness. -/
def extendL : Circuit := ⟨[qrEx], []⟩

/-- Right operand of the concrete incompatible-`extend` witness: its
register name is unknown to `extendL`. -/
def extendR : Circuit := ⟨[⟨"r", 1, RegKind.quantum⟩], []⟩

/-- The register added before the failing argument in the `add`
counterexample. -/
def qDup : Register := ⟨"q", 1, RegKind.quantum⟩

/-- A circuit with equal-size quantum and classical registers, for the
register-broadcast `measure` witness. -/
def measC : Circuit := ⟨[qrEx, crEx2], []⟩

/-- A circuit whose quantum and classical registers have different sizes,
for the `measure` size-mismatch claim. -/
def misC : Circuit := ⟨[qrEx, crEx], []⟩

/-- A concrete chain circuit (consecutive instructions share qubit
`(q, 0)`) for the round-trip witness. -/
def chainC : Circuit :=
  ⟨[qrEx, crEx],
   [⟨"cx", [], [(qrEx, 0), (qrEx, 1)], none⟩,
    ⟨"measure", [], [(qrEx, 0), (crEx, 0)], none⟩]⟩

/-- A circuit that declares its classical register before its quantum
register, exhibiting the register reordering of `dag_to_circuit`. -/
def interC : Circuit := ⟨[crEx, qrEx], []⟩

/-! ## General list lemmas -/

theorem find?_mono {α : Type} (p q : α → Bool) (r : α) :
    ∀ l : List α, l.find? p = some r → (∀ x, q x = true → p x = true) →
      q r = true → l.find? q = some r := by
  intro l
  induction l with
  | nil => intro h; simp [List.find?] at h
  | cons a t ih =>
      intro h himp hq
      by_cases hqa : q a = true
      · have hpa : p a = true := himp a hqa
        rw [List.find?_cons_of_pos _ hpa] at h
        rw [List.find?_cons_of_pos _ hqa]
        exact h
      · by_cases hpa : p a = true
        · rw [List.find?_cons_of_pos _ hpa] at h
          cases h
          exact absurd hq hqa
        · rw [List.find?_cons_of_neg _ (by simpa using hpa)] at h
          rw [List.find?_cons_of_neg _ (by simpa using hqa)]
          exact ih h himp hq

theorem find?_filter {α : Type} (p q : α → Bool) (r : α) :
    ∀ l : List α, l.find? p = some r → q r = true →
      (l.filter q).find? p = some r := by
  intro l
  induction l with
  | nil => intro h; simp [List.find?] at h
  | cons a t ih =>
      intro h hq
      by_cases hpa : p a = true
      · rw [List.find?_cons_of_pos _ hpa] at h
        cases h
        rw [List.filter_cons_of_pos hq, List.find?_cons_of_pos _ hpa]
      · rw [List.find?_cons_of_neg _ (by simpa using hpa)] at h
        by_cases hqa : q a = true
        · rw [List.filter_cons_of_pos hqa,
            List.find?_cons_of_neg _ (by simpa using hpa)]
          exact ih h hq
        · rw [List.filter_cons_of_neg (by simpa using hqa)]
          exact ih h hq

theorem find?_append_of_some {α : Type} (p : α → Bool) (x : α) :
    ∀ (a b : List α), a.find? p = some x → (a ++ b).find? p = some x := by
  intro a b
  induction a with
  | nil => intro h; simp [List.find?] at h
  | cons y t ih =>
      intro h
      by_cases hy : p y = true
      · rw [List.find?_cons_of_pos _ hy] at h
        simpa [List.find?_cons_of_pos _ hy] using h
      · rw [List.find?_cons_of_neg _ (by simpa using hy)] at h
        simpa [List.find?_cons_of_neg, hy] using ih h

theorem find?_append_of_none {α : Type} (p : α → Bool) :
    ∀ (a b : List α), a.find? p = none → (a ++ b).find? p = b.find? p := by
  intro a b
  induction a with
  | nil => intro _; simp
  | cons y t ih =>
      intro h
      by_cases hy : p y = true
      · rw [List.find?_cons_of_pos _ hy] at h; cases h
      · rw [List.find?_cons_of_neg _ (by simpa using hy)] at h
        simpa [List.find?_cons_of_neg, hy] using ih h

/-- With pairwise-distinct names, a member is found by name lookup. -/
theorem lookup_of_mem_nodup (s : Register) :
    ∀ l : List Register, (l.map Register.name).Nodup → s ∈ l →
      lookupReg l s.name = some s := by
  intro l
  induction l with
  | nil => intro _ h; cases h
  | cons a t ih =>
      intro hnd hmem
      rw [List.map_cons, List.nodup_cons] at hnd
      rcases List.mem_cons.mp hmem with h | h
      · cases h
        exact List.find?_cons_of_pos _ (by simp)
      · have hne : ¬ a.name = s.name := by
          intro he
          exact hnd.1 (he ▸ List.mem_map_of_mem Register.name h)
        unfold lookupReg
        rw [List.find?_cons_of_neg _ (by simpa using hne)]
        exact ih hnd.2 h

/-! ## Lemmas: `has_register`, `add`, compatibility, replay -/

theorem has_register_lookup (c : Circuit) (r : Register)
    (h : QuantumCircuit.has_register c r = true) :
    lookupReg c.regs r.name = some r := by
  unfold QuantumCircuit.has_register at h
  split at h
  · rename_i s heq
    by_cases hs : s.size = r.size
    · rw [if_pos hs] at h
      have heq' : c.regs.find? (fun x : Register => decide (x.name = r.name)) = some s := heq
      have hps := List.find?_some heq'
      have hname : s.name = r.name := by simpa using hps
      have hkind : s.kind = r.kind := by
        rw [Bool.or_eq_true, Bool.and_eq_true, Bool.and_eq_true] at h
        rcases h with ⟨ha, hb⟩ | ⟨ha, hb⟩ <;>
          rw [of_decide_eq_true ha, of_decide_eq_true hb]
      have hsr : s = r := by
        have e1 : s = (⟨s.name, s.size, s.kind⟩ : Register) := rfl
        rw [e1, hname, hs, hkind]
      rw [hsr] at heq; exact heq
    · rw [if_neg hs] at h; cases h
  · cases h

theorem checkCompat_none (self : Circuit) :
    ∀ rs : List Register, (∀ r ∈ rs, QuantumCircuit.has_register self r = true) →
      QuantumCircuit.checkCompat self rs = none := by
  intro rs
  induction rs with
  | nil => intro _; rfl
  | cons a t ih =>
      intro h
      unfold QuantumCircuit.checkCompat
      rw [if_pos (h a (List.mem_cons_self a t))]
      exact ih (fun r hr => h r (List.mem_cons_of_mem a hr))

theorem checkCompat_some (self : Circuit) :
    ∀ rs : List Register, (∃ r ∈ rs, ¬ QuantumCircuit.has_register self r = true) →
      QuantumCircuit.checkCompat self rs = some QError.notCompatible := by
  intro rs
  induction rs with
  | nil => rintro ⟨r, hr, _⟩; cases hr
  | cons a t ih =>
      rintro ⟨r, hr, hneg⟩
      unfold QuantumCircuit.checkCompat
      by_cases ha : QuantumCircuit.has_register self a = true
      · rw [if_pos ha]
        rcases List.mem_cons.mp hr with he | ht
        · cases he; exact absurd ha hneg
        · exact ih ⟨r, ht, hneg⟩
      · rw [if_neg ha]

theorem lookupReg_append_none {a : List Register} (b : List Register) {nm : String}
    (h : lookupReg a nm = none) : lookupReg (a ++ b) nm = lookupReg b nm :=
  find?_append_of_none _ a b h

theorem add_regs_ok : ∀ (rs : List Register) (c : Circuit),
    (∀ r ∈ rs, lookupReg c.regs r.name = none) →
    (rs.map Register.name).Nodup →
    QuantumCircuit.add c (rs.map QuantumCircuit.AddArg.register)
      = .ok ⟨c.regs ++ rs, c.data⟩ := by
  intro rs
  induction rs with
  | nil => intro c _ _; simp [QuantumCircuit.add]
  | cons r t ih =>
      intro c hfresh hnd
      rw [List.map_cons, List.nodup_cons] at hnd
      rw [List.map_cons]
      have hr : lookupReg c.regs r.name = none := hfresh r (List.mem_cons_self r t)
      unfold QuantumCircuit.add
      rw [hr]
      have hstep := ih { c with regs := c.regs ++ [r] }
        (by
          intro s hs
          have h1 : lookupReg c.regs s.name = none := hfresh s (List.mem_cons_of_mem r hs)
          show lookupReg (c.regs ++ [r]) s.name = none
          rw [lookupReg_append_none [r] h1]
          have hne : ¬ r.name = s.name := by
            intro he
            exact hnd.1 (he ▸ List.mem_map_of_mem Register.name hs)
          simp [lookupReg, List.find?, hne])
        hnd.2
      simp only [Option.isNone_none, if_true]
      rw [hstep]
      simp [List.append_assoc]

theorem add_regs_ok_inv : ∀ (rs : List Register) (c c' : Circuit),
    QuantumCircuit.add c (rs.map QuantumCircuit.AddArg.register) = .ok c' →
    c' = ⟨c.regs ++ rs, c.data⟩ := by
  intro rs
  induction rs with
  | nil =>
      intro c c' h
      simp only [List.map_nil, QuantumCircuit.add] at h
      cases h
      simp
  | cons r t ih =>
      intro c c' h
      rw [List.map_cons] at h
      unfold QuantumCircuit.add at h
      by_cases hr : (lookupReg c.regs r.name).isNone = true
      · rw [if_pos hr] at h
        rw [ih _ _ h]
        simp [List.append_assoc]
      · rw [if_neg hr] at h; cases h

theorem find?_name_size (regs : List Register) (r : Register)
    (h : lookupReg regs r.name = some r) :
    regs.find? (fun s => decide (s.name = r.name) && decide (s.size = r.size))
      = some r := by
  have h' : regs.find? (fun s : Register => decide (s.name = r.name)) = some r := h
  refine find?_mono (fun s : Register => decide (s.name = r.name))
    (fun s : Register => decide (s.name = r.name) && decide (s.size = r.size))
    r regs h' ?_ ?_
  · intro x hx
    rw [Bool.and_eq_true] at hx
    exact hx.1
  · simp

theorem rebindArgs_id (regs : List Register) :
    ∀ args : List BitRef,
      (∀ p ∈ args, lookupReg regs p.1.name = some p.1) →
      QuantumCircuit.rebindArgs regs args = .ok args := by
  intro args
  induction args with
  | nil => intro _; rfl
  | cons p t ih =>
      intro h
      obtain ⟨r, i⟩ := p
      unfold QuantumCircuit.rebindArgs
      rw [find?_name_size regs r (h (r, i) (List.mem_cons_self _ _))]
      rw [ih (fun q hq => h q (List.mem_cons_of_mem _ hq))]
      rfl

theorem reapply_ok (inst : Instruction) (c : Circuit)
    (h : QuantumCircuit.rebindArgs c.regs inst.arg = .ok inst.arg) :
    QuantumCircuit.reapply inst c = .ok { c with data := c.data ++ [inst] } := by
  unfold QuantumCircuit.reapply
  rw [h]

theorem replay_ok : ∀ (data : List Instruction) (c : Circuit),
    (∀ i ∈ data, QuantumCircuit.rebindArgs c.regs i.arg = .ok i.arg) →
    QuantumCircuit.replay c data = .ok ⟨c.regs, c.data ++ data⟩ := by
  intro data
  induction data with
  | nil => intro c _; simp [QuantumCircuit.replay]
  | cons i t ih =>
      intro c h
      unfold QuantumCircuit.replay
      rw [reapply_ok i c (h i (List.mem_cons_self i t))]
      show QuantumCircuit.replay { c with data := c.data ++ [i] } t = _
      rw [ih { c with data := c.data ++ [i] }
        (fun j hj => h j (List.mem_cons_of_mem i hj))]
      simp [List.append_assoc]

/-! ## Claims C2, C3, C7, C8 -/

/-- **C2.** For circuits `C1`, `C2` satisfying the circuit data invariant
(every operand bit reference resolves by name to the register it carries,
spec §3) with `C1`'s register names pairwise distinct and every register
of `C2` passing `has_register` against `C1`: `C1.combine(C2)` returns a
brand-new circuit over `C1`'s registers whose instruction list is exactly
`C1`'s instructions (in order) followed by `C2`'s (in order), hence with
exactly `len(C1) + len(C2)` instructions.  Neither operand is modified:
`combine` only reads `self` and `rhs` and builds a fresh circuit
(src lines 99-103), which the pure embedding makes structural. -/
theorem combine_spec (c1 c2 : Circuit)
    (h1 : argsBound c1 = true) (h2 : argsBound c2 = true)
    (hnd : (c1.regs.map Register.name).Nodup)
    (hcompat : ∀ r ∈ c2.regs, QuantumCircuit.has_register c1 r = true) :
    QuantumCircuit.combine c1 c2 = .ok ⟨c1.regs, c1.data ++ c2.data⟩ ∧
      (c1.data ++ c2.data).length = c1.data.length + c2.data.length := by
  constructor
  · have hreb : ∀ i ∈ c1.data ++ c2.data,
        QuantumCircuit.rebindArgs c1.regs i.arg = .ok i.arg := by
      intro i hi
      apply rebindArgs_id
      intro p hp
      rcases List.mem_append.mp hi with hi1 | hi2
      · have ha := (List.all_eq_true.mp h1) i hi1
        have hpd := (List.all_eq_true.mp ha) p hp
        exact of_decide_eq_true hpd
      · have ha := (List.all_eq_true.mp h2) i hi2
        have hpd := (List.all_eq_true.mp ha) p hp
        have hl2 : lookupReg c2.regs p.1.name = some p.1 := of_decide_eq_true hpd
        have hmem : p.1 ∈ c2.regs := List.mem_of_find?_eq_some hl2
        exact has_register_lookup c1 p.1 (hcompat p.1 hmem)
    have hadd := add_regs_ok c1.regs ⟨[], []⟩ (fun r _ => rfl) hnd
    have hrep := replay_ok (c1.data ++ c2.data) ⟨c1.regs, []⟩ hreb
    simp only [QuantumCircuit.combine, checkCompat_none c1 c2.regs hcompat]
    rw [hadd]
    show (match QuantumCircuit.replay ⟨c1.regs, []⟩ (c1.data ++ c2.data) with
      | .ok c' => Except.ok c'
      | .error (e, _) => Except.error e) = _
    rw [hrep]
    rfl
  · exact List.length_append _ _

/-- Witness for `combine_spec` at concrete circuits. -/
theorem combine_spec_w :
    (argsBound combineL = true ∧ argsBound combineR = true ∧
      (combineL.regs.map Register.name).Nodup ∧
      (∀ r ∈ combineR.regs, QuantumCircuit.has_register combineL r = true)) ∧
    (QuantumCircuit.combine combineL combineR
        = .ok ⟨combineL.regs, combineL.data ++ combineR.data⟩ ∧
      (combineL.data ++ combineR.data).length
        = combineL.data.length + combineR.data.length) :=
  ⟨⟨by decide, by decide, by decide, by decide⟩,
   combine_spec combineL combineR (by decide) (by decide) (by decide) (by decide)⟩

/-- **C3.** When some register of `C2` fails `has_register` against `C1`
(unknown name, wrong size, or wrong kind), both `C1.combine(C2)` and
`C1.extend(C2)` raise "circuits are not compatible"
(`IncompatibleRegistersError`), and neither operand is mutated: the check
loop precedes any replay and any register addition, and the `extend`
error value carries `C1` exactly as it was. -/
theorem combine_extend_incompatible (c1 c2 : Circuit)
    (h : ∃ r ∈ c2.regs, ¬ QuantumCircuit.has_register c1 r = true) :
    QuantumCircuit.combine c1 c2 = .error QError.notCompatible ∧
      QuantumCircuit.extend c1 c2 = .error (QError.notCompatible, c1) := by
  have hc := checkCompat_some c1 c2.regs h
  constructor
  · simp only [QuantumCircuit.combine, hc]
  · simp only [QuantumCircuit.extend, hc]

/-- Witness for `combine_extend_incompatible` at concrete circuits. -/
theorem combine_extend_incompatible_w :
    (∃ r ∈ extendR.regs, ¬ QuantumCircuit.has_register extendL r = true) ∧
    (QuantumCircuit.combine extendL extendR = .error QError.notCompatible ∧
      QuantumCircuit.extend extendL extendR
        = .error (QError.notCompatible, extendL)) :=
  ⟨by decide, combine_extend_incompatible extendL extendR (by decide)⟩

/-- **C7 counterexample.** `add` on an empty circuit, called with a valid
register followed by a non-register value, does fail with the
expected-register error — but the register map is *not* what it was
before the call: the first register has already been added.  The claim's
"no partial side effect: the circuit's register map is exactly what it
was before the call" is therefore false at this input. -/
theorem add_partial_mutation_cex :
    QuantumCircuit.add ⟨[], []⟩
        [QuantumCircuit.AddArg.register qDup, QuantumCircuit.AddArg.nonRegister]
      = .error (QError.expectedRegister, ⟨[qDup], []⟩) ∧
      ([qDup] : List Register) ≠ ([] : List Register) := by
  exact ⟨rfl, by decide⟩

theorem add_append_regs : ∀ (good : List Register) (c : Circuit)
    (rest : List QuantumCircuit.AddArg),
    (∀ r ∈ good, lookupReg c.regs r.name = none) →
    (good.map Register.name).Nodup →
    QuantumCircuit.add c (good.map QuantumCircuit.AddArg.register ++ rest)
      = QuantumCircuit.add { c with regs := c.regs ++ good } rest := by
  intro good
  induction good with
  | nil =>
      intro c rest _ _
      rw [List.map_nil, List.nil_append, List.append_nil]
  | cons r t ih =>
      intro c rest hfresh hnd
      rw [List.map_cons, List.nodup_cons] at hnd
      rw [List.map_cons, List.cons_append]
      have hr : lookupReg c.regs r.name = none := hfresh r (List.mem_cons_self r t)
      have h1 : QuantumCircuit.add c (QuantumCircuit.AddArg.register r
            :: (t.map QuantumCircuit.AddArg.register ++ rest))
          = QuantumCircuit.add { c with regs := c.regs ++ [r] }
              (t.map QuantumCircuit.AddArg.register ++ rest) := by
        show (if (lookupReg c.regs r.name).isNone = true then
                QuantumCircuit.add { c with regs := c.regs ++ [r] }
                  (t.map QuantumCircuit.AddArg.register ++ rest)
              else Except.error (QError.duplicateRegisterName r.name, c)) = _
        rw [hr]
        rfl
      rw [h1]
      rw [ih { c with regs := c.regs ++ [r] } rest
        (by
          intro s hs
          have hl1 : lookupReg c.regs s.name = none := hfresh s (List.mem_cons_of_mem r hs)
          show lookupReg (c.regs ++ [r]) s.name = none
          rw [lookupReg_append_none [r] hl1]
          have hne : ¬ r.name = s.name := by
            intro he
            exact hnd.1 (he ▸ List.mem_map_of_mem Register.name hs)
          simp [lookupReg, List.find?, hne])
        hnd.2]
      have hass : (c.regs ++ [r]) ++ t = c.regs ++ r :: t := by
        simp [List.append_assoc]
      show QuantumCircuit.add { c with regs := (c.regs ++ [r]) ++ t } rest = _
      rw [hass]

/-- **C7 amended.** `add` fails with the expected-register error at the
first non-register value and with the duplicate-name error at the first
colliding register name — but the failure is *not* side-effect free: the
fresh-named registers preceding the offending value remain added, so
after the failing call the register map is the old map extended by
exactly those registers.  (Only a failure on the first argument leaves
the map unchanged.) -/
theorem add_error_spec (c : Circuit) (good : List Register)
    (rest : List QuantumCircuit.AddArg) (d : Register)
    (hfresh : ∀ r ∈ good, lookupReg c.regs r.name = none)
    (hnd : (good.map Register.name).Nodup) :
    QuantumCircuit.add c (good.map QuantumCircuit.AddArg.register
        ++ QuantumCircuit.AddArg.nonRegister :: rest)
      = .error (QError.expectedRegister, { c with regs := c.regs ++ good }) ∧
    ((lookupReg (c.regs ++ good) d.name).isSome = true →
      QuantumCircuit.add c (good.map QuantumCircuit.AddArg.register
          ++ QuantumCircuit.AddArg.register d :: rest)
        = .error (QError.duplicateRegisterName d.name,
            { c with regs := c.regs ++ good })) := by
  constructor
  · rw [add_append_regs good c _ hfresh hnd]
    rfl
  · intro hd
    rw [add_append_regs good c _ hfresh hnd]
    unfold QuantumCircuit.add
    have hne : ¬ (lookupReg (c.regs ++ good) d.name).isNone = true := by
      cases hopt : lookupReg (c.regs ++ good) d.name with
      | none => rw [hopt] at hd; cases hd
      | some s => simp [hopt]
    rw [if_neg hne]

/-- Witness for `add_error_spec` at a concrete input: one good register,
then a non-register (first conjunct) or a colliding name (second). -/
theorem add_error_spec_w :
    ((∀ r ∈ [qDup], lookupReg (([] : List Register)) r.name = none) ∧
      (([qDup].map Register.name).Nodup) ∧
      (lookupReg (([] : List Register) ++ [qDup])
          (⟨"q", 3, RegKind.classical⟩ : Register).name).isSome = true) ∧
    (QuantumCircuit.add ⟨[], []⟩ ([qDup].map QuantumCircuit.AddArg.register
          ++ QuantumCircuit.AddArg.nonRegister :: [])
        = .error (QError.expectedRegister,
            { (⟨[], []⟩ : Circuit) with regs := ([] : List Register) ++ [qDup] }) ∧
      QuantumCircuit.add ⟨[], []⟩ ([qDup].map QuantumCircuit.AddArg.register
            ++ QuantumCircuit.AddArg.register ⟨"q", 3, RegKind.classical⟩ :: [])
          = .error (QError.duplicateRegisterName
                (⟨"q", 3, RegKind.classical⟩ : Register).name,
              { (⟨[], []⟩ : Circuit) with regs := ([] : List Register) ++ [qDup] })) := by
  refine ⟨⟨by decide, by decide, by decide⟩, ?_⟩
  have h := add_error_spec ⟨[], []⟩ [qDup] [] ⟨"q", 3, RegKind.classical⟩
    (by decide) (by decide)
  exact ⟨h.1, h.2 (by decide)⟩

/-- **C8.** With pairwise-distinct register names (the invariant `add`
maintains), `has_register` returns true exactly when some register of the
circuit agrees with the queried register in name, size, and kind — and
their objects need not be identical, equality of the three fields
suffices. -/
theorem has_register_iff (c : Circuit) (r : Register)
    (hnd : (c.regs.map Register.name).Nodup) :
    QuantumCircuit.has_register c r = true ↔
      ∃ s ∈ c.regs, s.name = r.name ∧ s.size = r.size ∧ s.kind = r.kind := by
  constructor
  · intro h
    exact ⟨r, List.mem_of_find?_eq_some (has_register_lookup c r h), rfl, rfl, rfl⟩
  · rintro ⟨s, hmem, hn, hs, hk⟩
    have hl : lookupReg c.regs s.name = some s := lookup_of_mem_nodup s c.regs hnd hmem
    unfold QuantumCircuit.has_register
    rw [← hn, hl]
    show (if s.size = r.size then _ else false) = true
    rw [if_pos hs, hk]
    cases hr : r.kind <;> simp [hr]

/-- Witness for `has_register_iff` at a concrete circuit. -/
theorem has_register_iff_w :
    ((combineL.regs.map Register.name).Nodup) ∧
    (QuantumCircuit.has_register combineL qrEx = true ↔
      ∃ s ∈ combineL.regs,
        s.name = qrEx.name ∧ s.size = qrEx.size ∧ s.kind = qrEx.kind) :=
  ⟨by decide, has_register_iff combineL qrEx (by decide)⟩

/-! ## Claims C4, C5, C9 -/

theorem except_bind_ok {ε α β : Type} (a : α) (f : α → Except ε β) :
    (Except.ok a : Except ε α) >>= f = f a := rfl

theorem except_bind_error {ε α β : Type} (e : ε) (f : α → Except ε β) :
    (Except.error e : Except ε α) >>= f = Except.error e := rfl

theorem except_pure_eq {ε α : Type} (a : α) :
    (pure a : Except ε α) = Except.ok a := rfl

theorem measureOne_bit_ok (c : Circuit) (q cl : Register) (i j : Nat)
    (hqk : q.kind = RegKind.quantum) (hclk : cl.kind = RegKind.classical)
    (hq : QuantumCircuit.has_register c q = true)
    (hcl : QuantumCircuit.has_register c cl = true)
    (hi : i < q.size) (hj : j < cl.size) :
    QuantumCircuit.measureOne c (MArg.bit q i) (MArg.bit cl j) =
      .ok ({ c with data := c.data ++ [⟨"measure", [], [(q, i), (cl, j)], none⟩] },
           ⟨"measure", [], [(q, i), (cl, j)], none⟩) := by
  unfold QuantumCircuit.measureOne QuantumCircuit.check_qubit
    QuantumCircuit.check_qreg QuantumCircuit.check_creg MArg.getitem checkRange
  simp [except_bind_ok, except_bind_error, except_pure_eq,
    hqk, hclk, hq, hcl, hi, hj]

theorem measStep_fold (q cl : Register)
    (hqk : q.kind = RegKind.quantum) (hclk : cl.kind = RegKind.classical) :
    ∀ (ns : List Nat) (c : Circuit) (acc : List Instruction),
      QuantumCircuit.has_register c q = true →
      QuantumCircuit.has_register c cl = true →
      (∀ i ∈ ns, i < q.size ∧ i < cl.size) →
      ns.foldlM (QuantumCircuit.measStep q cl) ((c, acc) : Circuit × List Instruction)
        = .ok ({ c with data := c.data ++ ns.map (mkMeas q cl) },
               acc ++ ns.map (mkMeas q cl)) := by
  intro ns
  induction ns with
  | nil =>
      intro c acc _ _ _
      rw [List.map_nil, List.append_nil, List.append_nil]
      rfl
  | cons n t ih =>
      intro c acc hq hcl hin
      have hn := hin n (List.mem_cons_self n t)
      have hone := measureOne_bit_ok c q cl n n hqk hclk hq hcl hn.1 hn.2
      have hstep : QuantumCircuit.measStep q cl (c, acc) n
          = .ok ({ c with data := c.data ++ [mkMeas q cl n] }, acc ++ [mkMeas q cl n]) := by
        unfold QuantumCircuit.measStep
        rw [hone]
        rfl
      rw [List.foldlM_cons, hstep]
      have hrest := ih { c with data := c.data ++ [mkMeas q cl n] } (acc ++ [mkMeas q cl n])
        hq hcl (fun i hi => hin i (List.mem_cons_of_mem n hi))
      show t.foldlM (QuantumCircuit.measStep q cl) _ = _
      rw [hrest]
      simp [List.append_assoc]

/-- **C4.** Measuring a whole quantum register `q` into a whole classical
register `cl` of the same size, both present in the circuit, attaches
exactly `q.size` measurement instructions in index order — the one at
index `i` measuring `(q, i)` into `(cl, i)` — and returns the same batch
collected in an `InstructionSet`. -/
theorem measure_register_spec (c : Circuit) (q cl : Register)
    (hqk : q.kind = RegKind.quantum) (hclk : cl.kind = RegKind.classical)
    (hsz : q.size = cl.size)
    (hq : QuantumCircuit.has_register c q = true)
    (hcl : QuantumCircuit.has_register c cl = true) :
    QuantumCircuit.measure c (MArg.reg q) (MArg.reg cl)
        = .ok ({ c with data := c.data ++ (List.range q.size).map (mkMeas q cl) },
               .iset ((List.range q.size).map (mkMeas q cl))) ∧
      ((List.range q.size).map (mkMeas q cl)).length = q.size := by
  constructor
  · have hcond : (decide (q.kind = RegKind.quantum)
        && decide (cl.kind = RegKind.classical) && decide (q.size = cl.size)) = true := by
      simp [hqk, hclk, hsz]
    simp only [QuantumCircuit.measure]
    rw [if_pos hcond]
    have hfold := measStep_fold q cl hqk hclk (List.range q.size) c []
      hq hcl (fun i hi => ⟨List.mem_range.mp hi, hsz ▸ List.mem_range.mp hi⟩)
    rw [hfold]
    rfl
  · simp

/-- Witness for `measure_register_spec` at a concrete circuit. -/
theorem measure_register_spec_w :
    (qrEx.kind = RegKind.quantum ∧ crEx2.kind = RegKind.classical ∧
      qrEx.size = crEx2.size ∧
      QuantumCircuit.has_register measC qrEx = true ∧
      QuantumCircuit.has_register measC crEx2 = true) ∧
    (QuantumCircuit.measure measC (MArg.reg qrEx) (MArg.reg crEx2)
        = .ok ({ measC with
                  data := measC.data ++ (List.range qrEx.size).map (mkMeas qrEx crEx2) },
               .iset ((List.range qrEx.size).map (mkMeas qrEx crEx2))) ∧
      ((List.range qrEx.size).map (mkMeas qrEx crEx2)).length = qrEx.size) :=
  ⟨⟨rfl, rfl, rfl, by decide, by decide⟩,
   measure_register_spec measC qrEx crEx2 rfl rfl rfl (by decide) (by decide)⟩

/-- **C5 counterexample.** Measuring a 2-qubit register into a 1-bit
classical register does fail and attaches nothing, but the error is the
"expected quantum register" kind, not a size-mismatch kind: the
unequal-size call falls through to the scalar path, which subscripts the
register operand (`qubit[0]` is the bit reference `(q, 0)`) and rejects
it because a bit reference is not a `QuantumRegister`. -/
theorem measure_size_mismatch_cex :
    QuantumCircuit.measure misC (MArg.reg qrEx) (MArg.reg crEx)
        = .error (QError.expectedQuantumRegister, misC) ∧
      QError.expectedQuantumRegister ≠ QError.sizeMismatch := by
  exact ⟨rfl, by decide⟩

/-- **C5 amended.** Measuring whole registers of unequal sizes fails —
with the "expected quantum register" error produced by the scalar
fallthrough path, not with a size-mismatch error — and no measurement
instruction is attached (the error carries the circuit unchanged). -/
theorem measure_size_mismatch (c : Circuit) (q cl : Register)
    (hqk : q.kind = RegKind.quantum) (hclk : cl.kind = RegKind.classical)
    (hsz : ¬ q.size = cl.size) (hpos : 0 < q.size) :
    QuantumCircuit.measure c (MArg.reg q) (MArg.reg cl)
      = .error (QError.expectedQuantumRegister, c) := by
  have hcond : ¬ ((decide (q.kind = RegKind.quantum)
      && decide (cl.kind = RegKind.classical) && decide (q.size = cl.size)) = true) := by
    simp [hsz]
  simp only [QuantumCircuit.measure]
  rw [if_neg hcond]
  have hone : QuantumCircuit.measureOne c (MArg.reg q) (MArg.reg cl)
      = .error (QError.expectedQuantumRegister, c) := by
    unfold QuantumCircuit.measureOne QuantumCircuit.check_qubit
      QuantumCircuit.check_qreg MArg.getitem
    simp [except_bind_ok, except_bind_error, except_pure_eq, hpos]
  rw [hone]

/-- Witness for `measure_size_mismatch` at a concrete circuit. -/
theorem measure_size_mismatch_w :
    (qrEx.kind = RegKind.quantum ∧ crEx.kind = RegKind.classical ∧
      ¬ qrEx.size = crEx.size ∧ 0 < qrEx.size) ∧
    QuantumCircuit.measure misC (MArg.reg qrEx) (MArg.reg crEx)
      = .error (QError.expectedQuantumRegister, misC) :=
  ⟨⟨rfl, rfl, by decide, by decide⟩,
   measure_size_mismatch misC qrEx crEx rfl rfl (by decide) (by decide)⟩

/-- **C9.** `CnotGate.inverse` returns the gate itself (`return self`,
src lines 43-45): the name, parameter list, and operand order are
unchanged, and applying `inverse` twice gives back the original gate. -/
theorem cnot_inverse_self (g : CnotGate) :
    g.inverse = g ∧ g.inverse.inverse = g ∧ g.inverse.name = g.name ∧
      g.inverse.param = g.param ∧ g.inverse.qargs = g.qargs :=
  ⟨rfl, rfl, rfl, rfl, rfl⟩

/-! ## Claims C6, C1, C10: the DAG conversions -/

theorem dag_regs_fold : ∀ (regs : List Register) (d : DAGCircuit),
    regs.foldl
      (fun d r =>
        match r.kind with
        | RegKind.quantum => d.add_qreg r.name r.size
        | RegKind.classical => d.add_creg r.name r.size) d
    = { d with qregs := d.qregs ++ regs.filter isQuantumB,
               cregs := d.cregs ++ regs.filter isClassicalB } := by
  intro regs
  induction regs with
  | nil =>
      intro d
      rw [List.foldl_nil, List.filter_nil, List.filter_nil,
        List.append_nil, List.append_nil]
  | cons r t ih =>
      intro d
      rw [List.foldl_cons]
      cases hk : r.kind with
      | quantum =>
          have hq : isQuantumB r = true := by simp [isQuantumB, hk]
          have hc : ¬ isClassicalB r = true := by simp [isClassicalB, hk]
          rw [List.filter_cons_of_pos hq, List.filter_cons_of_neg hc]
          have hrr : (⟨r.name, r.size, RegKind.quantum⟩ : Register) = r := by
            rw [← hk]
          show t.foldl _ (d.add_qreg r.name r.size) = _
          rw [ih (d.add_qreg r.name r.size)]
          simp [DAGCircuit.add_qreg, hrr, List.append_assoc]
      | classical =>
          have hq : ¬ isQuantumB r = true := by simp [isQuantumB, hk]
          have hc : isClassicalB r = true := by simp [isClassicalB, hk]
          rw [List.filter_cons_of_neg hq, List.filter_cons_of_pos hc]
          have hrr : (⟨r.name, r.size, RegKind.classical⟩ : Register) = r := by
            rw [← hk]
          show t.foldl _ (d.add_creg r.name r.size) = _
          rw [ih (d.add_creg r.name r.size)]
          simp [DAGCircuit.add_creg, hrr, List.append_assoc]

theorem dag_nodes_fold : ∀ (data : List Instruction) (d : DAGCircuit),
    data.foldl
      (fun d instr =>
        let d' :=
          match QuantumCircuit.lookupBuiltin instr.name with
          | some b => d.add_basis_element b
          | none => d
        d'.apply_operation_back (QuantumCircuit.nodeOf instr)) d
    = { d with basis := basisAfter d.basis data,
               nodes := d.nodes ++ data.map QuantumCircuit.nodeOf } := by
  intro data
  induction data with
  | nil =>
      intro d
      rw [List.foldl_nil, List.map_nil, List.append_nil]
      rfl
  | cons i t ih =>
      intro d
      rw [List.foldl_cons]
      cases hb : QuantumCircuit.lookupBuiltin i.name with
      | some b =>
          have hb2 : basisAfter d.basis (i :: t)
              = basisAfter (DAGCircuit.addBasisList d.basis b) t := by
            unfold basisAfter
            rw [List.foldl_cons, hb]
          show t.foldl _
              ((d.add_basis_element b).apply_operation_back (QuantumCircuit.nodeOf i)) = _
          rw [ih, hb2]
          simp [DAGCircuit.add_basis_element, DAGCircuit.apply_operation_back,
            List.append_assoc]
      | none =>
          have hb2 : basisAfter d.basis (i :: t) = basisAfter d.basis t := by
            unfold basisAfter
            rw [List.foldl_cons, hb]
          show t.foldl _ (d.apply_operation_back (QuantumCircuit.nodeOf i)) = _
          rw [ih, hb2]
          simp [DAGCircuit.apply_operation_back, List.append_assoc]

/-- The closed form of `QuantumCircuit.dag`: quantum registers in circuit
order, classical registers in circuit order, the builtin basis entries of
the instruction names seen, and one node per instruction in program
order. -/
theorem dag_eq (c : Circuit) :
    QuantumCircuit.dag c
      = ⟨c.regs.filter isQuantumB, c.regs.filter isClassicalB,
         basisAfter [] c.data, [], c.data.map QuantumCircuit.nodeOf⟩ := by
  show (c.data.foldl _
      (QuantumCircuit.definitions.foldl _
        (c.regs.foldl _ (⟨[], [], [], [], []⟩ : DAGCircuit)))) = _
  rw [dag_regs_fold c.regs ⟨[], [], [], [], []⟩]
  show (c.data.foldl _ _) = _
  rw [dag_nodes_fold]
  simp [QuantumCircuit.definitions]

theorem lookupBuiltin_name : ∀ (nm : String) (b : BasisEntry),
    QuantumCircuit.lookupBuiltin nm = some b → b.name = nm := by
  intro nm b h
  unfold QuantumCircuit.lookupBuiltin at h
  split at h <;> (cases h <;> rfl)

theorem basisAfter_find?_some (nm : String) (e : BasisEntry) :
    ∀ (data : List Instruction) (acc : List BasisEntry),
      acc.find? (fun x => decide (x.name = nm)) = some e →
      (basisAfter acc data).find? (fun x => decide (x.name = nm)) = some e := by
  intro data
  induction data with
  | nil => intro acc h; exact h
  | cons i t ih =>
      intro acc h
      have hstep : basisAfter acc (i :: t)
          = basisAfter
              (match QuantumCircuit.lookupBuiltin i.name with
                | some b => DAGCircuit.addBasisList acc b
                | none => acc) t := by
        unfold basisAfter
        rw [List.foldl_cons]
      rw [hstep]
      cases hb : QuantumCircuit.lookupBuiltin i.name with
      | none =>
          show (basisAfter acc t).find? _ = some e
          exact ih acc h
      | some b =>
          show (basisAfter (DAGCircuit.addBasisList acc b) t).find? _ = some e
          unfold DAGCircuit.addBasisList
          by_cases hpres : (acc.find? (fun x => decide (x.name = b.name))).isSome = true
          · rw [if_pos hpres]
            exact ih acc h
          · rw [if_neg hpres]
            exact ih _ (find?_append_of_some _ e acc [b] h)

theorem basisAfter_find?_none (nm : String) :
    ∀ (data : List Instruction) (acc : List BasisEntry),
      acc.find? (fun x => decide (x.name = nm)) = none →
      (basisAfter acc data).find? (fun x => decide (x.name = nm))
        = (if data.any (fun i => decide (i.name = nm)) = true then
            QuantumCircuit.lookupBuiltin nm
          else none) := by
  intro data
  induction data with
  | nil =>
      intro acc h
      simpa [basisAfter] using h
  | cons i t ih =>
      intro acc h
      have hstep : basisAfter acc (i :: t)
          = basisAfter
              (match QuantumCircuit.lookupBuiltin i.name with
                | some b => DAGCircuit.addBasisList acc b
                | none => acc) t := by
        unfold basisAfter
        rw [List.foldl_cons]
      rw [hstep]
      by_cases hnm : i.name = nm
      · have hany : ((i :: t).any (fun j => decide (j.name = nm))) = true := by
          simp [List.any_cons, hnm]
        rw [hany, if_pos rfl]
        cases hb : QuantumCircuit.lookupBuiltin i.name with
        | none =>
            show (basisAfter acc t).find? _ = _
            rw [ih acc h]
            rw [← hnm, hb]
            split <;> rfl
        | some b =>
            have hbn : b.name = i.name := lookupBuiltin_name _ _ hb
            show (basisAfter (DAGCircuit.addBasisList acc b) t).find? _ = _
            have hpredeq : (fun x : BasisEntry => decide (x.name = b.name))
                = (fun x : BasisEntry => decide (x.name = nm)) := by
              rw [hbn, hnm]
            have hpres : ¬ (acc.find? (fun x => decide (x.name = b.name))).isSome = true := by
              rw [hpredeq, h]
              simp
            unfold DAGCircuit.addBasisList
            rw [if_neg hpres]
            have hfound : ((acc ++ [b]).find? (fun x => decide (x.name = nm))) = some b := by
              rw [find?_append_of_none _ acc [b] h]
              simp [List.find?, hbn, hnm]
            rw [basisAfter_find?_some nm b t (acc ++ [b]) hfound]
            rw [← hnm, hb]
      · have hany : ((i :: t).any (fun j => decide (j.name = nm)))
            = (t.any (fun j => decide (j.name = nm))) := by
          simp [List.any_cons, hnm]
        rw [hany]
        cases hb : QuantumCircuit.lookupBuiltin i.name with
        | none =>
            show (basisAfter acc t).find? _ = _
            exact ih acc h
        | some b =>
            have hbn : b.name = i.name := lookupBuiltin_name _ _ hb
            show (basisAfter (DAGCircuit.addBasisList acc b) t).find? _ = _
            unfold DAGCircuit.addBasisList
            by_cases hpres : (acc.find? (fun x => decide (x.name = b.name))).isSome = true
            · rw [if_pos hpres]
              exact ih acc h
            · rw [if_neg hpres]
              apply ih
              rw [find?_append_of_none _ acc [b] h]
              simp [List.find?, hbn, hnm]

/-- **C6.** During `dag()`: (1) the DAG acquires exactly one node per
instruction, in program order; (2) the final basis table maps a name to
its fixed builtin arity exactly when the name is one of the five builtins
and some instruction carries it (registered on first sight, later
identical re-declarations being no-ops); (3) a measurement's quantum and
classical operands are separated into `qargs`/`cargs`, and the classical
condition is resolved to a `(register name, value)` pair on the node. -/
theorem dag_spec (c : Circuit) :
    (QuantumCircuit.dag c).nodes = c.data.map QuantumCircuit.nodeOf ∧
    (∀ nm : String,
      (QuantumCircuit.dag c).basis.find? (fun e => decide (e.name = nm))
        = (if c.data.any (fun i => decide (i.name = nm)) = true then
            QuantumCircuit.lookupBuiltin nm
          else none)) ∧
    (∀ (q cb : BitRef) (pr : List Int) (ctl : Option BitRef),
      QuantumCircuit.nodeOf ⟨"measure", pr, [q, cb], ctl⟩
        = ⟨"measure", [(q.1.name, q.2)], [(cb.1.name, cb.2)], pr,
            ctl.map (fun p => (p.1.name, p.2))⟩) := by
  refine ⟨?_, ?_, ?_⟩
  · rw [dag_eq]
  · intro nm
    rw [dag_eq]
    exact basisAfter_find?_none nm c.data [] rfl
  · intro q cb pr ctl
    rfl

theorem map_rebuild_quantum (l : List Register) :
    (l.filter isQuantumB).map
        (fun r => (⟨r.name, r.size, RegKind.quantum⟩ : Register))
      = l.filter isQuantumB := by
  have h : ∀ r ∈ l.filter isQuantumB,
      (⟨r.name, r.size, RegKind.quantum⟩ : Register) = r := by
    intro r hr
    have hk : r.kind = RegKind.quantum :=
      of_decide_eq_true ((List.mem_filter.mp hr).2)
    rw [← hk]
  calc (l.filter isQuantumB).map (fun r => (⟨r.name, r.size, RegKind.quantum⟩ : Register))
      = (l.filter isQuantumB).map id := List.map_congr_left h
    _ = l.filter isQuantumB := List.map_id _

theorem map_rebuild_classical (l : List Register) :
    (l.filter isClassicalB).map
        (fun r => (⟨r.name, r.size, RegKind.classical⟩ : Register))
      = l.filter isClassicalB := by
  have h : ∀ r ∈ l.filter isClassicalB,
      (⟨r.name, r.size, RegKind.classical⟩ : Register) = r := by
    intro r hr
    have hk : r.kind = RegKind.classical :=
      of_decide_eq_true ((List.mem_filter.mp hr).2)
    rw [← hk]
  calc (l.filter isClassicalB).map (fun r => (⟨r.name, r.size, RegKind.classical⟩ : Register))
      = (l.filter isClassicalB).map id := List.map_congr_left h
    _ = l.filter isClassicalB := List.map_id _

theorem filter_names_nodup (l : List Register)
    (hnd : (l.map Register.name).Nodup) :
    (((l.filter isQuantumB ++ l.filter isClassicalB).map Register.name)).Nodup := by
  rw [List.map_append]
  apply List.Nodup.append
  · exact hnd.sublist ((List.filter_sublist l).map Register.name)
  · exact hnd.sublist ((List.filter_sublist l).map Register.name)
  · intro nm h1 h2
    obtain ⟨r1, hr1, e1⟩ := List.mem_map.mp h1
    obtain ⟨r2, hr2, e2⟩ := List.mem_map.mp h2
    have hm1 := List.mem_filter.mp hr1
    have hm2 := List.mem_filter.mp hr2
    have hk1 : r1.kind = RegKind.quantum := of_decide_eq_true hm1.2
    have hk2 : r2.kind = RegKind.classical := of_decide_eq_true hm2.2
    have h12 : r1 = r2 :=
      List.inj_on_of_nodup_map hnd hm1.1 hm2.1 (by rw [e1, e2])
    rw [h12, hk2] at hk1
    cases hk1

theorem resolveBits_map (regs : List Register) :
    ∀ args : List BitRef,
      (∀ p ∈ args, lookupReg regs p.1.name = some p.1 ∧ p.2 < p.1.size) →
      resolveBits regs (args.map (fun p => (p.1.name, p.2))) = .ok args := by
  intro args
  induction args with
  | nil => intro _; rfl
  | cons p t ih =>
      intro h
      obtain ⟨r, i⟩ := p
      have hp := h (r, i) (List.mem_cons_self _ _)
      have hrest := ih (fun q hq => h q (List.mem_cons_of_mem _ hq))
      simp only [List.map_cons, resolveBits, hp.1, hp.2, if_true, hrest, Except.map]

theorem condResolve_id (c : Circuit) (ctl : Option BitRef)
    (h : ∀ p : BitRef, ctl = some p →
        lookupReg c.regs p.1.name = some p.1 ∧ p.1.kind = RegKind.classical) :
    condResolve (c.regs.filter isClassicalB) (ctl.map (fun p => (p.1.name, p.2)))
      = .ok ctl := by
  cases ctl with
  | none => rfl
  | some p =>
      obtain ⟨r, v⟩ := p
      have hp := h (r, v) rfl
      have hp1 : lookupReg c.regs r.name = some r := hp.1
      have hp2 : r.kind = RegKind.classical := hp.2
      have hl : lookupReg (c.regs.filter isClassicalB) r.name = some r :=
        find?_filter _ isClassicalB r c.regs hp1 (by simp [isClassicalB, hp2])
      have hmap : (Option.map (fun p : BitRef => (p.1.name, p.2)) (some (r, v)))
          = some (r.name, v) := rfl
      rw [hmap]
      simp only [condResolve, hl]

theorem reconstructNode_id (c : Circuit) (i : Instruction)
    (hwf : instrWf c.regs i = true) :
    reconstructNode (c.regs.filter isQuantumB) (c.regs.filter isClassicalB)
        (QuantumCircuit.nodeOf i) = .ok i := by
  simp only [instrWf, Bool.and_eq_true] at hwf
  obtain ⟨⟨⟨hargs, hctl⟩, hshape⟩, hbar⟩ := hwf
  have hargs' : ∀ p ∈ i.arg,
      lookupReg c.regs p.1.name = some p.1 ∧ p.2 < p.1.size := by
    intro p hp
    have hx := List.all_eq_true.mp hargs p hp
    rw [Bool.and_eq_true] at hx
    exact ⟨of_decide_eq_true hx.1, of_decide_eq_true hx.2⟩
  have hcond : condResolve (c.regs.filter isClassicalB)
      (i.control.map (fun p => (p.1.name, p.2))) = .ok i.control := by
    apply condResolve_id
    intro p hp
    rw [hp] at hctl
    have hctl' : (decide (lookupReg c.regs p.1.name = some p.1)
        && decide (p.1.kind = RegKind.classical)) = true := hctl
    rw [Bool.and_eq_true] at hctl'
    exact ⟨of_decide_eq_true hctl'.1, of_decide_eq_true hctl'.2⟩
  by_cases hm : i.name = "measure"
  · rw [if_pos hm] at hshape
    cases harg : i.arg with
    | nil => rw [harg] at hshape; cases hshape
    | cons q rest =>
      cases rest with
      | nil => rw [harg] at hshape; cases hshape
      | cons cb rest2 =>
        cases rest2 with
        | cons x xs => rw [harg] at hshape; cases hshape
        | nil =>
          rw [harg] at hshape
          have hshape' : (decide (q.1.kind = RegKind.quantum)
              && decide (cb.1.kind = RegKind.classical)) = true := hshape
          rw [Bool.and_eq_true] at hshape'
          have hqk : q.1.kind = RegKind.quantum := of_decide_eq_true hshape'.1
          have hck : cb.1.kind = RegKind.classical := of_decide_eq_true hshape'.2
          have hqmem : q ∈ i.arg := by rw [harg]; exact List.mem_cons_self _ _
          have hcmem : cb ∈ i.arg := by
            rw [harg]; exact List.mem_cons_of_mem _ (List.mem_cons_self _ _)
          have hq := hargs' q hqmem
          have hcb := hargs' cb hcmem
          have hq1 : lookupReg (c.regs.filter isQuantumB) q.1.name = some q.1 :=
            find?_filter _ isQuantumB q.1 c.regs hq.1 (by simp [isQuantumB, hqk])
          have hc1 : lookupReg (c.regs.filter isClassicalB) cb.1.name = some cb.1 :=
            find?_filter _ isClassicalB cb.1 c.regs hcb.1 (by simp [isClassicalB, hck])
          have hres1 : resolveBits (c.regs.filter isQuantumB) [(q.1.name, q.2)]
              = .ok [q] := by
            have hh := resolveBits_map (c.regs.filter isQuantumB) [q] (by
              intro p hp
              rw [List.mem_singleton.mp hp]
              exact ⟨hq1, hq.2⟩)
            simpa using hh
          have hres2 : resolveBits (c.regs.filter isClassicalB) [(cb.1.name, cb.2)]
              = .ok [cb] := by
            have hh := resolveBits_map (c.regs.filter isClassicalB) [cb] (by
              intro p hp
              rw [List.mem_singleton.mp hp]
              exact ⟨hc1, hcb.2⟩)
            simpa using hh
          have hnode : QuantumCircuit.nodeOf i
              = ⟨i.name, [(q.1.name, q.2)], [(cb.1.name, cb.2)], i.param,
                 i.control.map (fun p => (p.1.name, p.2))⟩ := by
            unfold QuantumCircuit.nodeOf
            rw [if_pos hm, harg]
            rfl
          rw [hnode]
          have hnb : ¬ i.name = "barrier" := by rw [hm]; decide
          have hns : ¬ i.name = "snapshot" := by rw [hm]; decide
          simp only [reconstructNode, hres1, hres2, hcond,
            except_bind_ok, except_pure_eq, duplicate_instruction,
            if_neg hnb, if_neg hns]
          have hqc : [q] ++ [cb] = i.arg := by
            rw [harg]
            rfl
          rw [hqc]
  · rw [if_neg hm] at hshape
    have hresq : resolveBits (c.regs.filter isQuantumB)
        (i.arg.map (fun p => (p.1.name, p.2))) = .ok i.arg := by
      apply resolveBits_map
      intro p hp
      have hq := hargs' p hp
      have hk : p.1.kind = RegKind.quantum :=
        of_decide_eq_true (List.all_eq_true.mp hshape p hp)
      exact ⟨find?_filter _ isQuantumB p.1 c.regs hq.1 (by simp [isQuantumB, hk]), hq.2⟩
    have hnode : QuantumCircuit.nodeOf i
        = ⟨i.name, i.arg.map (fun p => (p.1.name, p.2)), [], i.param,
           i.control.map (fun p => (p.1.name, p.2))⟩ := by
      unfold QuantumCircuit.nodeOf
      rw [if_neg hm]
    rw [hnode]
    have hres2 : resolveBits (c.regs.filter isClassicalB)
        ([] : List (String × Nat)) = .ok [] := rfl
    by_cases hbr : i.name = "barrier"
    · have hpar : i.param = [] := by
        rw [if_pos hbr] at hbar
        simpa using hbar
      simp only [reconstructNode, hresq, hres2, hcond,
        except_bind_ok, except_pure_eq, duplicate_instruction, if_pos hbr]
      rw [← hpar]
    · by_cases hsn : i.name = "snapshot"
      · simp only [reconstructNode, hresq, hres2, hcond,
          except_bind_ok, except_pure_eq, duplicate_instruction,
          if_neg hbr, if_pos hsn]
      · simp only [reconstructNode, hresq, hres2, hcond,
          except_bind_ok, except_pure_eq, duplicate_instruction,
          if_neg hbr, if_neg hsn, List.append_nil]

theorem dtc_fold (qregs cregs : List Register) (data : List Instruction) :
    ∀ (c : Circuit),
      (∀ i ∈ data,
        reconstructNode qregs cregs (QuantumCircuit.nodeOf i) = .ok i) →
      (data.map QuantumCircuit.nodeOf).foldlM
          (fun circ n => do
            let inst ← reconstructNode qregs cregs n
            pure { circ with data := circ.data ++ [inst] })
          c
        = .ok { c with data := c.data ++ data } := by
  induction data with
  | nil =>
      intro c _
      rw [List.map_nil, List.append_nil]
      rfl
  | cons i t ih =>
      intro c h
      rw [List.map_cons, List.foldlM_cons]
      show (do
          let inst ← reconstructNode qregs cregs (QuantumCircuit.nodeOf i)
          pure { c with data := c.data ++ [inst] }
          : Except QError Circuit) >>= _ = _
      rw [h i (List.mem_cons_self i t)]
      show ((pure { c with data := c.data ++ [i] } : Except QError Circuit) >>= _) = _
      rw [except_pure_eq, except_bind_ok]
      rw [ih { c with data := c.data ++ [i] }
        (fun j hj => h j (List.mem_cons_of_mem i hj))]
      simp [List.append_assoc]

theorem dag_to_circuit_eq (dagc : DAGCircuit) :
    dag_to_circuit dagc
      = (match QuantumCircuit.add ⟨[], []⟩
            (((dagc.qregs.map (fun r => (⟨r.name, r.size, RegKind.quantum⟩ : Register)))
              ++ (dagc.cregs.map (fun r => (⟨r.name, r.size, RegKind.classical⟩ : Register)))).map
              QuantumCircuit.AddArg.register) with
        | .error (e, _) => Except.error e
        | .ok circuit0 =>
            dagc.nodes.foldlM
              (fun circ n => do
                let inst ← reconstructNode
                    (dagc.qregs.map (fun r => (⟨r.name, r.size, RegKind.quantum⟩ : Register)))
                    (dagc.cregs.map (fun r => (⟨r.name, r.size, RegKind.classical⟩ : Register))) n
                pure { circ with data := circ.data ++ [inst] })
              circuit0) := rfl

/-- **C1.** Round trip: for every well-formed circuit `C`,
`from_dag(to_dag(C))` succeeds and its register list is a permutation of
`C`'s (quantum registers first, then classical, each group in `C`'s own
order — so exactly the same names, sizes, and kinds); and whenever `C`'s
instruction list forms a single per-bit chain, the resulting instruction
sequence is exactly `C`'s, in order.  (In the modelled DAG the
topological enumeration is node insertion order, so the computed result
in the first conjunct carries `C`'s sequence for every circuit; the
chain-conditioned third conjunct is the guarantee the round-trip
contract itself makes.) -/
theorem roundtrip_spec (c : Circuit) (hwf : circWf c = true) :
    dag_to_circuit (QuantumCircuit.dag c)
        = .ok ⟨c.regs.filter isQuantumB ++ c.regs.filter isClassicalB, c.data⟩ ∧
      (c.regs.filter isQuantumB ++ c.regs.filter isClassicalB).Perm c.regs ∧
      (chainData c.data = true →
        Except.map Circuit.data (dag_to_circuit (QuantumCircuit.dag c))
          = .ok c.data) := by
  simp only [circWf, Bool.and_eq_true] at hwf
  obtain ⟨hnd', hall⟩ := hwf
  have hnd : (c.regs.map Register.name).Nodup := of_decide_eq_true hnd'
  have hok : dag_to_circuit (QuantumCircuit.dag c)
      = .ok ⟨c.regs.filter isQuantumB ++ c.regs.filter isClassicalB, c.data⟩ := by
    rw [dag_eq, dag_to_circuit_eq]
    simp only [map_rebuild_quantum, map_rebuild_classical]
    have haddok := add_regs_ok (c.regs.filter isQuantumB ++ c.regs.filter isClassicalB)
      ⟨[], []⟩ (fun r _ => rfl) (filter_names_nodup c.regs hnd)
    rw [haddok]
    have hrec : ∀ i ∈ c.data,
        reconstructNode (c.regs.filter isQuantumB) (c.regs.filter isClassicalB)
          (QuantumCircuit.nodeOf i) = .ok i := by
      intro i hi
      exact reconstructNode_id c i (List.all_eq_true.mp hall i hi)
    show (c.data.map QuantumCircuit.nodeOf).foldlM _
        (⟨c.regs.filter isQuantumB ++ c.regs.filter isClassicalB, []⟩ : Circuit) = _
    rw [dtc_fold _ _ c.data _ hrec]
    rfl
  refine ⟨hok, ?_, ?_⟩
  · have h1 : c.regs.filter isClassicalB
        = c.regs.filter (fun r => !(isQuantumB r)) := by
      apply List.filter_congr
      intro r _
      cases hk : r.kind <;> simp [isQuantumB, isClassicalB, hk]
    rw [h1]
    exact List.filter_append_perm _ _
  · intro _
    rw [hok]
    rfl

/-- Witness for `roundtrip_spec` at the concrete chain circuit
`cx (q0,q1); measure (q0 -> c0)` (whose consecutive instructions share
qubit `(q, 0)`, discharging the chain premise of the last conjunct). -/
theorem roundtrip_spec_w :
    (circWf chainC = true ∧ chainData chainC.data = true) ∧
    (dag_to_circuit (QuantumCircuit.dag chainC)
        = .ok ⟨chainC.regs.filter isQuantumB ++ chainC.regs.filter isClassicalB,
               chainC.data⟩ ∧
      (chainC.regs.filter isQuantumB ++ chainC.regs.filter isClassicalB).Perm
        chainC.regs ∧
      (chainData chainC.data = true →
        Except.map Circuit.data (dag_to_circuit (QuantumCircuit.dag chainC))
          = .ok chainC.data)) :=
  ⟨⟨by decide, by decide⟩, roundtrip_spec chainC (by decide)⟩

theorem dtc_regs_inv (qregs cregs : List Register) :
    ∀ (nodes : List DagNode) (c c' : Circuit),
      nodes.foldlM
          (fun circ n => do
            let inst ← reconstructNode qregs cregs n
            pure { circ with data := circ.data ++ [inst] }) c = .ok c' →
      c'.regs = c.regs := by
  intro nodes
  induction nodes with
  | nil =>
      intro c c' h
      have h2 : (Except.ok c : Except QError Circuit) = .ok c' := h
      cases h2
      rfl
  | cons n t ih =>
      intro c c' h
      rw [List.foldlM_cons] at h
      have h2 : ((do
          let inst ← reconstructNode qregs cregs n
          pure { c with data := c.data ++ [inst] } : Except QError Circuit)
            >>= fun b => t.foldlM
              (fun circ n => do
                let inst ← reconstructNode qregs cregs n
                pure { circ with data := circ.data ++ [inst] }) b) = .ok c' := h
      cases hr : reconstructNode qregs cregs n with
      | error e =>
          rw [hr, except_bind_error, except_bind_error] at h2
          cases h2
      | ok inst =>
          rw [hr, except_bind_ok, except_pure_eq, except_bind_ok] at h2
          exact ih { c with data := c.data ++ [inst] } c' h2

/-- **C10.** The circuit built by `dag_to_circuit` lists all quantum
registers before all classical registers, each group in the DAG's own
enumeration order — regardless of how the original circuit interleaved
its register declarations.  Concretely, a circuit declaring `c` (classical)
before `q` (quantum) round-trips to a circuit whose register order is
`[q, c]`, so declaration order is not preserved, only the register set. -/
theorem dag_to_circuit_reg_order (d : DAGCircuit) (c' : Circuit)
    (h : dag_to_circuit d = .ok c') :
    (c'.regs
        = d.qregs.map (fun r => (⟨r.name, r.size, RegKind.quantum⟩ : Register))
          ++ d.cregs.map (fun r => (⟨r.name, r.size, RegKind.classical⟩ : Register))) ∧
      (dag_to_circuit (QuantumCircuit.dag interC) = .ok ⟨[qrEx, crEx], []⟩ ∧
        interC.regs = [crEx, qrEx] ∧
        ([qrEx, crEx] : List Register) ≠ [crEx, qrEx]) := by
  constructor
  · rw [dag_to_circuit_eq] at h
    cases hadd : QuantumCircuit.add ⟨[], []⟩
        (((d.qregs.map (fun r => (⟨r.name, r.size, RegKind.quantum⟩ : Register)))
          ++ (d.cregs.map (fun r => (⟨r.name, r.size, RegKind.classical⟩ : Register)))).map
          QuantumCircuit.AddArg.register) with
    | error p =>
        obtain ⟨e, st⟩ := p
        rw [hadd] at h
        cases h
    | ok c0 =>
        rw [hadd] at h
        have h0 := add_regs_ok_inv _ _ _ hadd
        have h1 := dtc_regs_inv _ _ d.nodes c0 c' h
        rw [h1, h0]
        simp
  · exact ⟨rfl, rfl, by decide⟩

/-- Witness for `dag_to_circuit_reg_order` at the DAG of the
interleaved-declaration circuit. -/
theorem dag_to_circuit_reg_order_w :
    (dag_to_circuit (QuantumCircuit.dag interC) = .ok ⟨[qrEx, crEx], []⟩) ∧
    (((⟨[qrEx, crEx], []⟩ : Circuit).regs
        = (QuantumCircuit.dag interC).qregs.map
            (fun r => (⟨r.name, r.size, RegKind.quantum⟩ : Register))
          ++ (QuantumCircuit.dag interC).cregs.map
            (fun r => (⟨r.name, r.size, RegKind.classical⟩ : Register))) ∧
      (dag_to_circuit (QuantumCircuit.dag interC) = .ok ⟨[qrEx, crEx], []⟩ ∧
        interC.regs = [crEx, qrEx] ∧
        ([qrEx, crEx] : List Register) ≠ [crEx, qrEx])) := by
  have h : dag_to_circuit (QuantumCircuit.dag interC) = .ok ⟨[qrEx, crEx], []⟩ := rfl
  exact ⟨h, dag_to_circuit_reg_order (QuantumCircuit.dag interC) ⟨[qrEx, crEx], []⟩ h⟩

end Qiskit
